import Mathlib

/-!
Shallow embedding of ktsignal (include/ktsignal.hpp), a header-only
signal/slot library.  The signal owns a std list of slots; connect
appends a slot at the end and returns a connection holding an erase
closure that captures the position of the new entry; disconnect runs
the closure once and replaces it with a no-op; emit walks the list in
order invoking every slot with the forwarded arguments; emit_iterate
returns a lazy input iterator whose dereference invokes exactly the
slot at the current position.

Positions (std list iterators) are modelled by Nat tokens stamped on
each registry entry at connect time; node stability of std list means
a token stays valid until its own entry is erased, which the model
mirrors by erasing the unique entry carrying the token.
-/

/-- Registry of a signal: the ordered slot list, each entry tagged with
the Nat token that models its std list iterator, plus the fresh-token
counter.  Mirrors the field slots_ of ktsignal_impl. -/
structure Registry (σ : Type) where
  slots : List (Nat × σ)
  nextId : Nat
deriving Repr, DecidableEq

/-- The empty signal, as constructed by ktsignal_impl. -/
def initRegistry (σ : Type) : Registry σ := ⟨[], 0⟩

/-- Model of ktsignal_impl::connect: append the slot at the end of the
list (slots_.emplace(slots_.end(), slot)) and hand back the token of
the new entry, which the returned connection captures. -/
def connect {σ : Type} (r : Registry σ) (f : σ) : Registry σ × Nat :=
  (⟨r.slots ++ [(r.nextId, f)], r.nextId + 1⟩, r.nextId)

/-- Model of the erase lambda built inside connect:
slots_.erase(erase_iter) removes the one entry the captured iterator
designates, leaving every other entry untouched. -/
def eraseToken {σ : Type} (r : Registry σ) (t : Nat) : Registry σ :=
  ⟨r.slots.eraseP (fun q => q.1 == t), r.nextId⟩

/-- A connection handle: the state of its stored erase_func.  In
ktsignal_connection the function is either the armed erase lambda
(capturing a token) or, after a disconnect, the no-op lambda. -/
abbrev Conn : Type := Option Nat

/-- Model of ktsignal_connection::disconnect: run the erase action,
then replace it with the no-op, so the armed state erases the captured
entry and every later call does nothing. -/
def disconnect {σ : Type} (r : Registry σ) (c : Conn) : Registry σ × Conn :=
  match c with
  | some t => (eraseToken r t, none)
  | none => (r, none)

/-- Uncurried disconnect step on a signal together with one connection
handle; repeated application models repeated disconnect calls on the
same ktsignal_connection object. -/
def dstep {σ : Type} (x : Registry σ × Conn) : Registry σ × Conn :=
  disconnect x.1 x.2

/-- One caller-side operation on a signal: register a new slot, or call
disconnect on the handle returned by the i-th connect so far. -/
inductive Op (σ : Type) where
  | connect (f : σ)
  | disconnect (i : Nat)

/-- Concrete small-step of a run: the signal registry together with the
list of connection handles handed out so far (each remembering, as
ghost data, the slot it registered).  A connect appends a slot and
records the new armed handle; a disconnect i runs disconnect on the
i-th handle and stores back its disarmed state.  A disconnect whose
index names no handle yet corresponds to no C++ call and is a no-op. -/
def step {σ : Type} (s : Registry σ × List (Conn × σ)) (op : Op σ) :
    Registry σ × List (Conn × σ) :=
  match op with
  | .connect f =>
      let rc := connect s.1 f
      (rc.1, s.2 ++ [(some rc.2, f)])
  | .disconnect i =>
      match s.2.get? i with
      | some cp =>
          let rc := disconnect s.1 cp.1
          (rc.1, s.2.set i (rc.2, cp.2))
      | none => s

/-- Run a whole sequence of operations from a given state. -/
def runOps {σ : Type} : List (Op σ) → Registry σ × List (Conn × σ) →
    Registry σ × List (Conn × σ)
  | [], s => s
  | op :: rest, s => runOps rest (step s op)

/-- Model of ktsignal_impl::emit specialised to unary slots: walk the
slot list in order and invoke each slot with the forwarded argument.
The returned trace records, per invocation in execution order, the
token of the invoked entry, the argument the slot observed, and the
result the slot produced (emit itself discards results). -/
def emitLoop {α β : Type} : List (Nat × (α → β)) → α → List (Nat × α × β)
  | [], _ => []
  | (t, f) :: rest, a => (t, a, f a) :: emitLoop rest a

/-- Every invocation in the emit trace carries the original argument. -/
theorem emitLoop_args {α β : Type} (slots : List (Nat × (α → β))) (a : α) :
    (emitLoop slots a).map (fun e => e.2.1) = List.replicate slots.length a := by
  induction slots with
  | nil => rfl
  | cons p rest ih => cases p; simp [emitLoop, ih, List.replicate]

/-- Tokens invoked by emitLoop are exactly the registered tokens, in
registry order. -/
theorem emitLoop_trace {α β : Type} (slots : List (Nat × (α → β))) (a : α) :
    emitLoop slots a = slots.map (fun p => (p.1, a, p.2 a)) := by
  induction slots with
  | nil => rfl
  | cons p rest ih => cases p; simp [emitLoop, ih]

/-- C1: emit invokes each currently registered slot exactly once, in
registration order, and every slot observes the exact argument passed
by the caller: the invocation trace lists precisely the registered
entries, in registry order, each paired with the original argument and
its result. -/
theorem emit_invokes_each_slot_once_in_order {α β : Type}
    (r : Registry (α → β)) (a : α) :
    emitLoop r.slots a = r.slots.map (fun p => (p.1, a, p.2 a)) ∧
    (emitLoop r.slots a).map (fun e => e.1) = r.slots.map (fun p => p.1) ∧
    (emitLoop r.slots a).map (fun e => e.2.1) = List.replicate r.slots.length a := by
  refine ⟨emitLoop_trace r.slots a, ?_, emitLoop_args r.slots a⟩
  simp [emitLoop_trace r.slots a]

/-- C3 core fact: after the first disconnect the handle is disarmed, and
a disconnect of a disarmed handle changes nothing. -/
theorem dstep_iterate {σ : Type} :
    ∀ (n : Nat) (x : Registry σ × Conn), dstep^[n + 1] x = dstep x := by
  intro n
  induction n with
  | zero => intro x; rfl
  | succ m ih =>
      intro x
      have h2 : dstep^[m + 1 + 1] x = dstep^[m + 1] (dstep x) := by
        simp [Function.iterate_succ_apply]
      have h3 : dstep^[m + 1] (dstep x) = dstep (dstep x) := ih (dstep x)
      have h4 : dstep (dstep x) = dstep x := by
        cases x with
        | mk r c => cases c <;> rfl
      exact h2.trans (h3.trans h4)

/-- C3: calling disconnect any positive number of times on one
connection leaves the signal and the handle exactly as one call does:
the first call executes the erase action and every later call is a
no-op, because the stored action has been replaced by the no-op. -/
theorem disconnect_idempotent {σ : Type} (r : Registry σ) (c : Conn) (n : Nat) :
    dstep^[n + 1] (r, c) = dstep (r, c) ∧
    (dstep (r, c)).2 = none ∧
    (∀ t : Nat, dstep (r, some t) = (eraseToken r t, none)) := by
  refine ⟨dstep_iterate n (r, c), ?_, fun t => rfl⟩
  cases c <;> rfl

/-- Model of emit over slots that can fail (a C++ slot that throws):
each slot returns either a value or an error.  The loop invokes slots
in registry order; on the first error it stops, later slots are not
invoked, and the error escapes to the caller.  The result pairs the
list of tokens actually invoked with the escaped error, if any. -/
def emitExcept {α β ε : Type} :
    List (Nat × (α → Except ε β)) → α → List Nat × Option ε
  | [], _ => ([], none)
  | (t, f) :: rest, a =>
      match f a with
      | .error e => ([t], some e)
      | .ok _ =>
          let r := emitExcept rest a
          (t :: r.1, r.2)

/-- A slot call that did not fail. -/
def slotOk {α β ε : Type} (f : α → Except ε β) (a : α) : Prop :=
  ∃ b, f a = Except.ok b

/-- C5: if every slot before position i succeeds and the slot at i
fails, emit invokes exactly the slots up to and including i, in order,
and the failure escapes unmodified to the caller of emit; no slot
after the failing one is invoked. -/
theorem emit_fail_fast {α β ε : Type}
    (pre post : List (Nat × (α → Except ε β))) (t : Nat)
    (f : α → Except ε β) (a : α) (e : ε)
    (hpre : ∀ p ∈ pre, slotOk p.2 a) (hf : f a = Except.error e) :
    emitExcept (pre ++ (t, f) :: post) a = (pre.map (fun p => p.1) ++ [t], some e) := by
  induction pre with
  | nil => simp [emitExcept, hf]
  | cons q rest ih =>
      obtain ⟨tq, fq⟩ := q
      obtain ⟨b, hb⟩ := hpre (tq, fq) (by simp)
      have hb2 : fq a = Except.ok b := hb
      have ih2 := ih (fun p hp => hpre p (List.mem_cons_of_mem _ hp))
      simp [emitExcept, hb2, ih2]

/-- C5 witness: a concrete three-slot signal whose middle slot fails on
argument 5; only the first two slots run and the error code 42 escapes. -/
theorem emit_fail_fast_witness :
    emitExcept
      [(0, fun n : Nat => Except.ok (n + 1)),
       (1, fun _ : Nat => (Except.error 42 : Except Nat Nat)),
       (2, fun n : Nat => Except.ok (n + 3))] 5 = ([0, 1], some 42) :=
  emit_fail_fast [(0, fun n : Nat => Except.ok (n + 1))]
    [(2, fun n : Nat => Except.ok (n + 3))] 1
    (fun _ : Nat => (Except.error 42 : Except Nat Nat)) 5 42
    (by intro p hp; simp at hp; rw [hp]; exact ⟨6, rfl⟩) rfl

/-- Model of signal_iterator: it stores the current position in the
slot list (the std list iterator iter_) together with, implicitly, the
argument tuple fixed when emit_iterate built the range. -/
structure SigIter where
  pos : Nat
deriving Repr, DecidableEq

/-- Model of signal_iterator::operator*: invoke exactly the slot at the
current position with the stored arguments and return its result; the
trace entry records token, observed argument and result.  Dereferencing
the end iterator has no defined C++ meaning and yields none here. -/
def iterDeref {α β : Type} (slots : List (Nat × (α → β))) (a : α)
    (it : SigIter) : Option (Nat × α × β) :=
  (slots.get? it.pos).map (fun p => (p.1, a, p.2 a))

/-- Model of signal_iterator::operator++: move to the next position;
no slot is invoked. -/
def iterInc (it : SigIter) : SigIter := ⟨it.pos + 1⟩

/-- Consume up to k elements of the lazy range produced by
emit_iterate, starting at the given iterator: the standard loop that
dereferences, then advances, stopping at the end iterator.  Returns the
trace of the slot invocations it performed. -/
def consumeFrom {α β : Type} (slots : List (Nat × (α → β))) (a : α) :
    SigIter → Nat → List (Nat × α × β)
  | _, 0 => []
  | it, Nat.succ k =>
      match iterDeref slots a it with
      | none => []
      | some ev => ev :: consumeFrom slots a (iterInc it) k

/-- Consuming k elements starting at position i performs exactly the
invocations of an emit loop over the k slots following position i. -/
theorem consumeFrom_eq {α β : Type} (slots : List (Nat × (α → β))) (a : α) :
    ∀ (k i : Nat), consumeFrom slots a ⟨i⟩ k = emitLoop ((slots.drop i).take k) a := by
  intro k
  induction k with
  | zero => intro i; simp [consumeFrom, emitLoop]
  | succ m ih =>
      intro i
      cases hg : slots.get? i with
      | none =>
          have hlen : slots.length ≤ i := List.get?_eq_none.mp hg
          have hg2 : slots[i]? = none := by
            rw [← List.get?_eq_getElem?]; exact hg
          simp [consumeFrom, iterDeref, hg2, List.drop_eq_nil_of_le hlen, emitLoop]
      | some p =>
          have hi : i < slots.length := by
            by_contra hle
            rw [List.get?_eq_none.mpr (Nat.le_of_not_lt hle)] at hg
            exact Option.noConfusion hg
          have hip : slots[i] = p := by
            have := hg
            rw [List.get?_eq_getElem?, List.getElem?_eq_getElem hi] at this
            exact Option.some.inj this
          have hdrop : slots.drop i = p :: slots.drop (i + 1) := by
            rw [List.drop_eq_getElem_cons hi, hip]
          have hg2 : slots[i]? = some p := by
            rw [← List.get?_eq_getElem?]; exact hg
          simp [consumeFrom, iterDeref, hg2, iterInc, ih (i + 1), hdrop, emitLoop]

/-- C4: the lazy sequence returned by emit_iterate refines emit.
Consuming the whole range performs exactly the invocations of emit, in
registration order with the same per-slot results; consuming only a
prefix of length k performs exactly the invocations emit would perform
on the first k registered slots, so no slot beyond the consumed prefix
is invoked; and advancing the iterator alone changes only the stored
position, invoking nothing. -/
theorem emit_iterate_refines_emit {α β : Type}
    (r : Registry (α → β)) (a : α) (k : Nat) :
    consumeFrom r.slots a ⟨0⟩ r.slots.length = emitLoop r.slots a ∧
    consumeFrom r.slots a ⟨0⟩ k = emitLoop (r.slots.take k) a ∧
    (∀ it : SigIter, iterInc it = ⟨it.pos + 1⟩) := by
  refine ⟨?_, ?_, fun it => rfl⟩
  · rw [consumeFrom_eq r.slots a r.slots.length 0, List.drop_zero,
      List.take_length]
  · rw [consumeFrom_eq r.slots a k 0, List.drop_zero]

/-- Lock kinds a ktsignal operation can take on the shared mutex of the
signal.  With thread_safe = false the mutex type is empty_mutex, whose
lock methods do nothing, written here as the kind free. -/
inductive LockKind where
  | free
  | shared
  | exclusive
deriving Repr, DecidableEq

/-- Lock taken by connect, scoped_connect and the erase lambda run by
disconnect: always std unique_lock on the signal mutex, which on a
shared_mutex is the exclusive lock and on empty_mutex does nothing. -/
def mutationLock (threadSafe : Bool) : LockKind :=
  if threadSafe then .exclusive else .free

/-- Lock taken by emit and by signal_iterator dereference: emit_locker
is std unique_lock when emit_thread_safe, else std shared_lock, on the
same conditional mutex type. -/
def emissionLock (threadSafe emitThreadSafe : Bool) : LockKind :=
  if threadSafe then
    (if emitThreadSafe then .exclusive else .shared)
  else .free

/-- Whether two lock acquisitions on one shared_mutex can be held at
the same time: shared with shared can; exclusive excludes everything;
the free kind (empty_mutex) never blocks. -/
def locksCompatible : LockKind → LockKind → Bool
  | .free, _ => true
  | _, .free => true
  | .shared, .shared => true
  | _, _ => false

/-- C9: under the ktsignal_threadsafe configuration (thread_safe true,
emit_thread_safe false) every connect and disconnect takes the
exclusive lock and every emit takes the shared lock, so two emissions
may run concurrently while a mutation can overlap neither an emission
nor another mutation. -/
theorem reader_writer_shared_emission_policy :
    mutationLock true = LockKind.exclusive ∧
    emissionLock true false = LockKind.shared ∧
    locksCompatible (emissionLock true false) (emissionLock true false) = true ∧
    locksCompatible (mutationLock true) (emissionLock true false) = false ∧
    locksCompatible (emissionLock true false) (mutationLock true) = false ∧
    locksCompatible (mutationLock true) (mutationLock true) = false := by
  decide

/-- State of the erase_func std function stored in a connection: armed
with the erase closure for one token, the no-op installed by
disconnect, or the empty std function left behind in a moved-from
connection (moving a std function leaves the source empty in every
mainstream standard library).  Calling an empty std function throws
std::bad_function_call. -/
inductive EraseFn where
  | armed (t : Nat)
  | noop
  | empty
deriving Repr, DecidableEq

/-- Invoke the stored erase_func on the registry: the armed closure
locks and erases its entry, the no-op does nothing, and the empty
function throws std::bad_function_call, modelled as an error. -/
def callEraseFn {σ : Type} (r : Registry σ) : EraseFn → Except Unit (Registry σ)
  | .armed t => .ok (eraseToken r t)
  | .noop => .ok r
  | .empty => .error ()

/-- Model of ktsignal_connection::disconnect on the three-state
erase_func: run erase_func, then replace it with the no-op.  If the
call throws, the replacement is never reached. -/
def disconnectFn {σ : Type} (r : Registry σ) (e : EraseFn) :
    Except Unit (Registry σ × EraseFn) :=
  (callEraseFn r e).map (fun r2 => (r2, EraseFn.noop))

/-- Model of the defaulted move constructor of
ktsignal_scoped_connection: the target takes over the erase_func and
the moved-from object is left holding the empty std function.  The pair
is (moved-from state, moved-to state). -/
def moveScoped (e : EraseFn) : EraseFn × EraseFn := (EraseFn.empty, e)

/-- Model of the ktsignal_scoped_connection destructor: it calls
disconnect unconditionally on whatever erase_func the object holds. -/
def destroyScoped {σ : Type} (r : Registry σ) (e : EraseFn) :
    Except Unit (Registry σ × EraseFn) :=
  disconnectFn r e

/-- C6 (code bug evidence): destroying a live, never-moved scoped
connection performs exactly its one erase, but after a move the
moved-from destructor calls the now empty erase_func and throws
std::bad_function_call (inside a noexcept destructor, so the program
terminates), while the moved-to destructor performs the single erase.
So destruction of the moved-from object is not failure free, contrary
to the claim. -/
theorem scoped_connection_move_destructor_throws {σ : Type}
    (r : Registry σ) (t : Nat) :
    destroyScoped r (EraseFn.armed t) = Except.ok (eraseToken r t, EraseFn.noop) ∧
    destroyScoped r (moveScoped (EraseFn.armed t)).2 =
      Except.ok (eraseToken r t, EraseFn.noop) ∧
    destroyScoped r (moveScoped (EraseFn.armed t)).1 = Except.error () := by
  exact ⟨rfl, rfl, rfl⟩

/-- C7: a slot whose connection was disconnected before emit is never
invoked by that emit (its token is absent from the registry, hence from
the trace), and in the concrete scenario connect A, connect B,
connect C, disconnect B, emitting a invokes A then C with the exact
argument and never B. -/
theorem disconnected_slot_never_invoked {α β : Type}
    (fA fB fC : α → β) (a : α) (slots : List (Nat × (α → β))) (t : Nat)
    (h : t ∉ slots.map (fun p => p.1)) :
    t ∉ (emitLoop slots a).map (fun e => e.1) ∧
    (runOps [Op.connect fA, Op.connect fB, Op.connect fC, Op.disconnect 1]
        (initRegistry (α → β), [])).1.slots = [(0, fA), (2, fC)] ∧
    emitLoop (runOps [Op.connect fA, Op.connect fB, Op.connect fC, Op.disconnect 1]
        (initRegistry (α → β), [])).1.slots a = [(0, a, fA a), (2, a, fC a)] := by
  refine ⟨?_, rfl, rfl⟩
  rw [emitLoop_trace]
  simpa using h

/-- C7 witness: concrete slots adding 1, doubling, and identity on Nat;
after disconnecting the middle one, emitting 5 invokes the first and
third slots with 5 and the absent token 1 is nowhere in the trace. -/
theorem disconnected_slot_never_invoked_witness :
    (1 ∉ (emitLoop ([(0, fun n : Nat => n + 1), (2, fun n : Nat => n)]) 5).map
        (fun e => e.1)) ∧
    (runOps [Op.connect (fun n : Nat => n + 1), Op.connect (fun n : Nat => 2 * n),
        Op.connect (fun n : Nat => n), Op.disconnect 1]
        (initRegistry (Nat → Nat), [])).1.slots =
      [(0, fun n : Nat => n + 1), (2, fun n : Nat => n)] ∧
    emitLoop (runOps [Op.connect (fun n : Nat => n + 1), Op.connect (fun n : Nat => 2 * n),
        Op.connect (fun n : Nat => n), Op.disconnect 1]
        (initRegistry (Nat → Nat), [])).1.slots 5 =
      [(0, 5, (fun n : Nat => n + 1) 5), (2, 5, (fun n : Nat => n) 5)] :=
  disconnected_slot_never_invoked (fun n : Nat => n + 1) (fun n : Nat => 2 * n)
    (fun n : Nat => n) 5 [(0, fun n : Nat => n + 1), (2, fun n : Nat => n)] 1
    (by decide)

/-- C10: connecting the same callable twice yields two distinct registry
entries (distinct tokens 0 and 1); emit invokes both with the argument;
disconnecting the first handle removes only entry 0, leaving entry 1
registered and invoked by emit, and symmetrically for the second
handle. -/
theorem connect_same_callable_twice {α β : Type} (f : α → β) (a : α) :
    (runOps [Op.connect f, Op.connect f]
        (initRegistry (α → β), [])).1.slots = [(0, f), (1, f)] ∧
    emitLoop (runOps [Op.connect f, Op.connect f]
        (initRegistry (α → β), [])).1.slots a = [(0, a, f a), (1, a, f a)] ∧
    (runOps [Op.connect f, Op.connect f, Op.disconnect 0]
        (initRegistry (α → β), [])).1.slots = [(1, f)] ∧
    (runOps [Op.connect f, Op.connect f, Op.disconnect 1]
        (initRegistry (α → β), [])).1.slots = [(0, f)] ∧
    emitLoop (runOps [Op.connect f, Op.connect f, Op.disconnect 0]
        (initRegistry (α → β), [])).1.slots a = [(1, a, f a)] ∧
    emitLoop (runOps [Op.connect f, Op.connect f, Op.disconnect 1]
        (initRegistry (α → β), [])).1.slots a = [(0, a, f a)] :=
  ⟨rfl, rfl, rfl, rfl, rfl, rfl⟩

/-- C8: over the whole lifetime of one connection, any positive number
of disconnect calls removes at most the one registry entry carrying the
captured token: either no entry carries it and the registry is
unchanged, or the registry splits as front, the entry with the token,
and back, with every front entry carrying a different token, and the
final registry is exactly front plus back, all other entries unchanged
and in order.  After the calls the handle holds no token (the action is
the no-op), so the token is never referenced again, and the counter of
the signal is untouched. -/
theorem disconnect_removes_at_most_one_entry {σ : Type}
    (r : Registry σ) (t : Nat) (n : Nat) :
    (dstep^[n + 1] (r, some t)).2 = none ∧
    (dstep^[n + 1] (r, some t)).1.nextId = r.nextId ∧
    ((dstep^[n + 1] (r, some t)).1.slots = r.slots ∨
      ∃ x l₁ l₂, (∀ b ∈ l₁, b.1 ≠ t) ∧ x.1 = t ∧
        r.slots = l₁ ++ x :: l₂ ∧
        (dstep^[n + 1] (r, some t)).1.slots = l₁ ++ l₂) := by
  rw [dstep_iterate n (r, some t)]
  refine ⟨rfl, rfl, ?_⟩
  rcases List.exists_or_eq_self_of_eraseP (fun q => q.1 == t) r.slots with heq | hex
  · exact Or.inl heq
  · obtain ⟨x, l₁, l₂, hfront, hx, hsplit, herase⟩ := hex
    refine Or.inr ⟨x, l₁, l₂, ?_, ?_, hsplit, herase⟩
    · intro b hb hbt
      exact hfront b hb (by simp [hbt])
    · simpa using hx

/-- Spec-side description (section 8 of the spec): scanning the
operation sequence with the count c of connects made so far, collect
the indices of connects that are later disconnected through their own
handle.  A disconnect index only counts if that connect already
happened, since no handle exists before its connect. -/
def validDisc {σ : Type} : List (Op σ) → Nat → List Nat
  | [], _ => []
  | Op.connect _ :: rest, c => validDisc rest (c + 1)
  | Op.disconnect j :: rest, c => (if j < c then [j] else []) ++ validDisc rest c

/-- Spec-side registry: the slots connected by the sequence, in
registration order, keeping exactly those whose handle is never validly
disconnected afterwards; each kept entry carries its connect index,
which is also its token when the run starts from the empty signal. -/
def specReg {σ : Type} : List (Op σ) → Nat → List (Nat × σ)
  | [], _ => []
  | Op.connect f :: rest, c =>
      (if c ∈ validDisc rest (c + 1) then [] else [(c, f)]) ++ specReg rest (c + 1)
  | Op.disconnect _ :: rest, c => specReg rest c

/-- Abstraction of one operation acting on the handle list alone: a
connect appends an armed handle whose token is its position, a
disconnect disarms the addressed handle. -/
def absStep {σ : Type} (cs : List (Conn × σ)) : Op σ → List (Conn × σ)
  | .connect f => cs ++ [(some cs.length, f)]
  | .disconnect i =>
      match cs.get? i with
      | some cp => cs.set i (none, cp.2)
      | none => cs

/-- Run of the abstract handle-list semantics. -/
def absRun {σ : Type} : List (Op σ) → List (Conn × σ) → List (Conn × σ)
  | [], cs => cs
  | op :: rest, cs => absRun rest (absStep cs op)

/-- Abstraction function: the registry entries determined by the handle
list, position k onward: one entry per still-armed handle, tagged with
its position. -/
def filt {σ : Type} : Nat → List (Conn × σ) → List (Nat × σ)
  | _, [] => []
  | k, (o, p) :: rest =>
      (match o with
       | some _ => [(k, p)]
       | none => []) ++ filt (k + 1) rest

/-- Like filt, but additionally dropping the entries whose absolute
position lies in the deletion set D. -/
def filtD {σ : Type} (D : List Nat) : Nat → List (Conn × σ) → List (Nat × σ)
  | _, [] => []
  | k, (o, p) :: rest =>
      (match o with
       | some _ => if k ∈ D then [] else [(k, p)]
       | none => []) ++ filtD D (k + 1) rest

/-- Token invariant: an armed handle stored at position i carries
token i.  This holds in every state reachable from the empty signal
because connect hands out tokens equal to positions. -/
def TokInv {σ : Type} (cs : List (Conn × σ)) : Prop :=
  ∀ i t p, cs.get? i = some (some t, p) → t = i

/-- Run invariant tying the concrete signal state to its handle list:
the fresh-token counter equals the number of handles handed out, and
the slot list is exactly the armed handles in order. -/
def StInv {σ : Type} (s : Registry σ × List (Conn × σ)) : Prop :=
  s.1.nextId = s.2.length ∧ s.1.slots = filt 0 s.2 ∧ TokInv s.2

theorem filt_append {σ : Type} :
    ∀ (l₁ l₂ : List (Conn × σ)) (k : Nat),
      filt k (l₁ ++ l₂) = filt k l₁ ++ filt (k + l₁.length) l₂ := by
  intro l₁
  induction l₁ with
  | nil => intro l₂ k; simp [filt]
  | cons x rest ih =>
      intro l₂ k
      obtain ⟨o, p⟩ := x
      have h1 : k + 1 + rest.length = k + (rest.length + 1) := by omega
      cases o <;> simp [filt, ih l₂ (k + 1), h1]

theorem filtD_append {σ : Type} (D : List Nat) :
    ∀ (l₁ l₂ : List (Conn × σ)) (k : Nat),
      filtD D k (l₁ ++ l₂) = filtD D k l₁ ++ filtD D (k + l₁.length) l₂ := by
  intro l₁
  induction l₁ with
  | nil => intro l₂ k; simp [filtD]
  | cons x rest ih =>
      intro l₂ k
      obtain ⟨o, p⟩ := x
      have h1 : k + 1 + rest.length = k + (rest.length + 1) := by omega
      cases o <;> simp [filtD, ih l₂ (k + 1), h1]

theorem filtD_nilD {σ : Type} :
    ∀ (l : List (Conn × σ)) (k : Nat), filtD [] k l = filt k l := by
  intro l
  induction l with
  | nil => intro k; rfl
  | cons x rest ih =>
      intro k
      obtain ⟨o, p⟩ := x
      simp only [filtD, filt, ih (k + 1)]
      cases o <;> simp

theorem filtD_irrel {σ : Type} (D : List Nat) (j : Nat) :
    ∀ (l : List (Conn × σ)) (k : Nat), j < k →
      filtD (j :: D) k l = filtD D k l := by
  intro l
  induction l with
  | nil => intro k _; rfl
  | cons x rest ih =>
      intro k hk
      obtain ⟨o, p⟩ := x
      have hne : k ≠ j := by omega
      have hmem : (k ∈ j :: D) = (k ∈ D) := by
        simp [List.mem_cons, hne]
      cases o <;> simp [filtD, ih (k + 1) (by omega), hmem]

theorem filtD_set {σ : Type} (D : List Nat) :
    ∀ (l : List (Conn × σ)) (k i : Nat) (o : Conn) (p : σ),
      l.get? i = some (o, p) →
      filtD ((k + i) :: D) k l = filtD D k (l.set i (none, p)) := by
  intro l
  induction l with
  | nil => intro k i o p h; exact absurd h (by simp)
  | cons x rest ih =>
      intro k i o p h
      obtain ⟨o0, p0⟩ := x
      cases i with
      | zero =>
          have hp : p0 = p := congrArg Prod.snd (Option.some.inj h)
          rw [← hp]
          have hirr := filtD_irrel D k rest (k + 1) (by omega)
          cases o0 <;> simp [filtD, List.set, hirr]
      | succ i2 =>
          have h2 : rest.get? i2 = some (o, p) := h
          have hne2 : ¬ (k = (k + 1) + i2) := by omega
          have harith : k + (i2 + 1) = (k + 1) + i2 := by omega
          have ih2 := ih (k + 1) i2 o p h2
          rw [harith]
          cases o0 <;> simp [filtD, List.set, hne2, ih2]

theorem filt_erase {σ : Type} :
    ∀ (l : List (Conn × σ)) (k i s : Nat) (p : σ),
      l.get? i = some (some s, p) →
      (filt k l).eraseP (fun q => q.1 == k + i) = filt k (l.set i (none, p)) := by
  intro l
  induction l with
  | nil => intro k i s p h; exact absurd h (by simp)
  | cons x rest ih =>
      intro k i s p h
      obtain ⟨o0, p0⟩ := x
      cases i with
      | zero =>
          have ho : o0 = some s := congrArg Prod.fst (Option.some.inj h)
          have hp : p0 = p := congrArg Prod.snd (Option.some.inj h)
          subst ho
          rw [← hp]
          simp [filt, List.set]
      | succ i2 =>
          have h2 : rest.get? i2 = some (some s, p) := h
          have hbeq : (k == k + (i2 + 1)) = false := by simp
          have harith : k + (i2 + 1) = (k + 1) + i2 := by omega
          have ih2 := ih (k + 1) i2 s p h2
          cases o0 with
          | some t =>
              simp only [filt, List.set, List.singleton_append, List.eraseP_cons,
                hbeq, cond_false]
              rw [harith, ih2]
          | none =>
              simp only [filt, List.set, List.nil_append]
              rw [harith, ih2]

theorem set_get_same {γ : Type} :
    ∀ (l : List γ) (i : Nat) (a : γ), l.get? i = some a → l.set i a = l := by
  intro l
  induction l with
  | nil => intro i a h; exact absurd h (by simp)
  | cons x rest ih =>
      intro i a h
      cases i with
      | zero =>
          have hx : x = a := Option.some.inj h
          simp [List.set, hx]
      | succ i2 => simp [List.set, ih i2 a h]

theorem tokInv_append {σ : Type} (cs : List (Conn × σ)) (f : σ)
    (h : TokInv cs) : TokInv (cs ++ [(some cs.length, f)]) := by
  intro i t p hg
  by_cases hi : i < cs.length
  · rw [List.get?_append hi] at hg
    exact h i t p hg
  · rcases Nat.eq_or_lt_of_le (Nat.le_of_not_lt hi) with heq | hgt
    · rw [← heq] at hg
      rw [List.get?_concat_length] at hg
      have h2 : some cs.length = some t :=
        congrArg Prod.fst (Option.some.inj hg)
      rw [← heq]
      exact (Option.some.inj h2).symm
    · have hlen : (cs ++ [(some cs.length, f)]).length ≤ i := by
        simp
        omega
      rw [List.get?_eq_none.mpr hlen] at hg
      exact Option.noConfusion hg

theorem tokInv_set_none {σ : Type} (cs : List (Conn × σ)) (i : Nat) (p : σ)
    (h : TokInv cs) : TokInv (cs.set i (none, p)) := by
  intro j t q hg
  by_cases hij : i = j
  · subst hij
    rcases Nat.lt_or_ge i cs.length with hlt | hge
    · rw [List.get?_eq_getElem?, List.getElem?_set_self hlt] at hg
      exact Option.noConfusion (congrArg Prod.fst (Option.some.inj hg))
    · have hlen : (cs.set i (none, p)).length ≤ i := by simpa using hge
      rw [List.get?_eq_none.mpr (by simpa using hlen)] at hg
      exact Option.noConfusion hg
  · rw [List.get?_eq_getElem?, List.getElem?_set_ne hij] at hg
    exact h j t q (by rw [List.get?_eq_getElem?]; exact hg)

theorem step_sim {σ : Type} (s : Registry σ × List (Conn × σ)) (op : Op σ)
    (h : StInv s) : (step s op).2 = absStep s.2 op ∧ StInv (step s op) := by
  obtain ⟨r, cs⟩ := s
  obtain ⟨hn, hs, ht⟩ := h
  have hn2 : r.nextId = cs.length := hn
  have hs2 : r.slots = filt 0 cs := hs
  have ht2 : TokInv cs := ht
  cases op with
  | connect f =>
      refine ⟨?_, ?_, ?_, ?_⟩
      · show cs ++ [(some r.nextId, f)] = cs ++ [(some cs.length, f)]
        rw [hn2]
      · show r.nextId + 1 = (cs ++ [(some r.nextId, f)]).length
        simp [hn2]
      · show r.slots ++ [(r.nextId, f)] = filt 0 (cs ++ [(some r.nextId, f)])
        rw [hs2, filt_append]
        simp [filt, hn2]
      · show TokInv (cs ++ [(some r.nextId, f)])
        rw [hn2]
        exact tokInv_append cs f ht2
  | disconnect i =>
      cases hg : cs.get? i with
      | none =>
          have hstep : step (r, cs) (Op.disconnect i) = (r, cs) := by
            simp only [step, hg]
          have habs : absStep cs (Op.disconnect i) = cs := by
            simp only [absStep, hg]
          rw [hstep, habs]
          exact ⟨rfl, hn, hs, ht⟩
      | some cp =>
          obtain ⟨c, p⟩ := cp
          cases c with
          | some t =>
              have hti : t = i := ht2 i t p hg
              have hstep : step (r, cs) (Op.disconnect i)
                  = (eraseToken r t, cs.set i (none, p)) := by
                simp only [step, hg, disconnect]
              have habs : absStep cs (Op.disconnect i) = cs.set i (none, p) := by
                simp only [absStep, hg]
              rw [hstep, habs]
              refine ⟨rfl, ?_, ?_, ?_⟩
              · show (eraseToken r t).nextId = (cs.set i (none, p)).length
                simp [eraseToken, hn2]
              · show (eraseToken r t).slots = filt 0 (cs.set i (none, p))
                have he := filt_erase cs 0 i t p hg
                simp only [Nat.zero_add] at he
                show r.slots.eraseP (fun q => q.1 == t) = filt 0 (cs.set i (none, p))
                rw [hs2, hti]
                exact he
              · show TokInv (cs.set i (none, p))
                exact tokInv_set_none cs i p ht2
          | none =>
              have hsame : cs.set i (none, p) = cs := set_get_same cs i (none, p) hg
              have hstep : step (r, cs) (Op.disconnect i) = (r, cs.set i (none, p)) := by
                simp only [step, hg, disconnect]
              have habs : absStep cs (Op.disconnect i) = cs.set i (none, p) := by
                simp only [absStep, hg]
              rw [hstep, habs, hsame]
              exact ⟨rfl, hn, hs, ht⟩

theorem runOps_sim {σ : Type} :
    ∀ (ops : List (Op σ)) (s : Registry σ × List (Conn × σ)), StInv s →
      (runOps ops s).2 = absRun ops s.2 ∧ StInv (runOps ops s) := by
  intro ops
  induction ops with
  | nil => intro s h; exact ⟨rfl, h⟩
  | cons op rest ih =>
      intro s h
      obtain ⟨he, hinv⟩ := step_sim s op h
      have ih2 := ih (step s op) hinv
      refine ⟨?_, ih2.2⟩
      calc (runOps (op :: rest) s).2 = (runOps rest (step s op)).2 := rfl
        _ = absRun rest (step s op).2 := ih2.1
        _ = absRun rest (absStep s.2 op) := by rw [he]
        _ = absRun (op :: rest) s.2 := rfl

theorem absRun_spec {σ : Type} :
    ∀ (ops : List (Op σ)) (cs : List (Conn × σ)),
      filt 0 (absRun ops cs) =
        filtD (validDisc ops cs.length) 0 cs ++ specReg ops cs.length := by
  intro ops
  induction ops with
  | nil =>
      intro cs
      simp [absRun, validDisc, specReg, filtD_nilD]
  | cons op rest ih =>
      intro cs
      cases op with
      | connect f =>
          have ih2 := ih (cs ++ [(some cs.length, f)])
          rw [List.length_append, List.length_singleton] at ih2
          show filt 0 (absRun rest (cs ++ [(some cs.length, f)])) = _
          rw [ih2, filtD_append]
          simp [validDisc, specReg, filtD, Nat.zero_add]
      | disconnect j =>
          cases hg : cs.get? j with
          | none =>
              have hj : cs.length ≤ j := List.get?_eq_none.mp hg
              have ih2 := ih cs
              show filt 0 (absRun rest (absStep cs (Op.disconnect j))) = _
              simp only [absStep, hg]
              rw [ih2]
              simp [validDisc, specReg, Nat.not_lt.mpr hj]
          | some cp =>
              obtain ⟨o, p⟩ := cp
              have hj : j < cs.length := by
                by_contra hle
                rw [List.get?_eq_none.mpr (Nat.le_of_not_lt hle)] at hg
                exact Option.noConfusion hg
              have ih2 := ih (cs.set j (none, p))
              rw [List.length_set] at ih2
              have hset := filtD_set (validDisc rest cs.length) cs 0 j o p hg
              simp only [Nat.zero_add] at hset
              show filt 0 (absRun rest (absStep cs (Op.disconnect j))) = _
              simp only [absStep, hg]
              rw [ih2, ← hset]
              simp [validDisc, specReg, hj]

/-- C2: starting from the empty signal, after any sequence of connects
and disconnects the registry holds exactly the slots whose handles were
never disconnected, in their original relative registration order, each
still carrying the token from its connect. -/
theorem registry_is_connected_minus_disconnected {σ : Type}
    (ops : List (Op σ)) :
    (runOps ops (initRegistry σ, [])).1.slots = specReg ops 0 := by
  have hinv : StInv ((initRegistry σ, ([] : List (Conn × σ)))) := by
    refine ⟨rfl, rfl, ?_⟩
    intro i t p hg
    exact absurd hg (by simp)
  obtain ⟨habs, hfin⟩ := runOps_sim ops (initRegistry σ, []) hinv
  rw [hfin.2.1, habs, absRun_spec]
  simp [filtD]
